import Mathlib

/-!
Verification of the duplicate-video detection and resolution core of
`src/Video/detect_duplicate_videos.py`.

The Python source is shallowly embedded below.  Pure data manipulation is
translated function by function; the external collaborators (the `ffprobe`
duration prober, the `hashlib` digest, the `difflib` name-similarity ratio and
the `cv2` frame decoder / correlation measure) are passed in as explicit
function parameters, exactly as the specification treats them (external
interfaces).  Python `float` values are modelled by `ℚ`; the decimal literals
appearing in the claims (100.0, 102.5, 104.0, 0.8, ...) are exactly
representable in both.  Python `dict` objects (insertion ordered, and
`defaultdict(list)` with `.append`) are modelled by association lists with the
same insertion-order semantics.  The mutable filesystem touched by `os.remove`
is modelled by the list of paths that currently exist and are removable; an
`os.remove` on any other path raises `OSError`, i.e. returns failure.
-/

/-- Mirror of the `VideoFile` dataclass: path, byte size, display name, and the
optional fields populated by the detection methods (`hash_md5`, `duration`,
`frame_hash`) with the same defaults as in the source. -/
structure VideoFile where
  path : String
  size : Nat
  name : String
  hash_md5 : String := ""
  duration : Rat := -1
  frame_hash : String := ""
deriving DecidableEq, Repr

instance : Inhabited VideoFile :=
  ⟨{ path := "", size := 0, name := "" }⟩

/-- Model of `defaultdict(list)` bucket update: `groups[k].extend(new)` (or,
equivalently, a run of consecutive `groups[k].append(x)` calls).  The
association list keeps keys in first-insertion order, as a Python dict does. -/
def appendAtKey {κ β : Type} [DecidableEq κ] (k : κ) (new : List β) :
    List (κ × List β) → List (κ × List β)
  | [] => [(k, new)]
  | (k', ms) :: rest =>
      if k' = k then (k', ms ++ new) :: rest else (k', ms) :: appendAtKey k new rest

/-- Embedding of `detect_by_size`: bucket the inventory by exact byte size
(`size_groups[video_file.size].append(video_file)`), then keep only the buckets
with more than one member. -/
def detect_by_size (files : List VideoFile) : List (Nat × List VideoFile) :=
  (files.foldl (fun acc f => appendAtKey f.size [f] acc) []).filter
    (fun g => decide (1 < g.2.length))

/-- Embedding of `detect_by_hash`.  The digest computation
`calculate_file_hash` streams the file through `hashlib.md5` and returns `""`
when an `OSError`/`PermissionError` occurs; it is modelled by the external
function `hashFn` from paths to digest strings, with `""` meaning failure.  The
source sets `video_file.hash_md5` to the digest and appends the file to its
digest bucket only when the digest is non-empty; singleton buckets are dropped
at the end. -/
def detect_by_hash (hashFn : String → String) (files : List VideoFile) :
    List (String × List VideoFile) :=
  (files.foldl
      (fun acc f =>
        let f' := { f with hash_md5 := hashFn f.path }
        if f'.hash_md5 ≠ "" then appendAtKey f'.hash_md5 [f'] acc else acc)
      []).filter (fun g => decide (1 < g.2.length))

/-- The greedy representative clustering loop shared by the name, duration and
frames detectors.  The source walks the list with an index set `processed`: the
first file not yet processed becomes the representative of a new group, and
every later unprocessed file is tested against the representative only; the
matched files join the group and are marked processed.  Removing the matched
files from the remainder is the functional reading of that index bookkeeping. -/
def greedyGroups {α : Type} (p : α → α → Bool) : List α → List (α × List α)
  | [] => []
  | f :: rest =>
      (f, f :: rest.filter (fun g => p f g)) ::
        greedyGroups p (rest.filter (fun g => ! p f g))
termination_by l => l.length
decreasing_by
  simp_wf
  exact Nat.lt_succ_of_le (List.length_filter_le _ _)

/-- Match predicate of `detect_by_name_similarity`:
`SequenceMatcher(None, a.name.lower(), b.name.lower()).ratio() >= threshold`.
The `difflib` ratio is the external parameter `sim`. -/
def nameMatch (sim : String → String → Rat) (thr : Rat) (a b : VideoFile) : Bool :=
  decide (thr ≤ sim a.name.toLower b.name.toLower)

/-- Embedding of `detect_by_name_similarity`: greedy representative clustering
of the whole inventory under `nameMatch`, keeping groups with at least two
members.  The source stores each group under the synthetic key `group_<i>`
(`i` the index of the representative); those keys are pairwise distinct, so the
returned dict is faithfully modelled by the list of member lists in insertion
order. -/
def detect_by_name_similarity (sim : String → String → Rat) (thr : Rat)
    (files : List VideoFile) : List (List VideoFile) :=
  ((greedyGroups (nameMatch sim thr) files).map (fun g => g.2)).filter
    (fun g => decide (1 < g.length))

/-- Match predicate of the duration grouping loop:
`abs(file1.duration - file2.duration) <= duration_tolerance`. -/
def durMatch (tol : Rat) (a b : VideoFile) : Bool :=
  decide (|a.duration - b.duration| ≤ tol)

/-- Model of the dict key `f"duration_{d:.1f}"`: the duration rounded to one
decimal place, kept as the integer number of tenths.  Python rounds the binary
float to even at exact ties; for all values considered here (no exact tie at
the third decimal) this agrees with rounding half up. -/
def durationKey (d : Rat) : Int :=
  round (10 * d)

/-- The storage step of `detect_by_duration`: each greedy group is appended,
representative first and matches afterwards, to the bucket
`duration_groups[f"duration_{rep.duration:.1f}"]`.  Two representatives whose
durations format to the same key therefore share one bucket. -/
def storeByKey (gs : List (VideoFile × List VideoFile)) : List (Int × List VideoFile) :=
  gs.foldl (fun acc g => appendAtKey (durationKey g.1.duration) g.2 acc) []

/-- The duration probing and filtering stage of `detect_by_duration`:
`get_video_duration` (ffprobe, modelled by `probe`, returning a non-positive
value such as the source sentinel `-1.0` on failure) is stored into each file,
and only files with `duration > 0` enter `valid_files`. -/
def validDurationFiles (probe : String → Rat) (files : List VideoFile) : List VideoFile :=
  (files.map (fun f => { f with duration := probe f.path })).filter
    (fun f => decide (0 < f.duration))

/-- Embedding of `detect_by_duration`: probe durations, keep the valid files,
run greedy representative clustering under `durMatch`, store the groups by the
formatted duration key, and keep buckets with more than one member. -/
def detect_by_duration (probe : String → Rat) (tol : Rat) (files : List VideoFile) :
    List (Int × List VideoFile) :=
  (storeByKey (greedyGroups (durMatch tol) (validDurationFiles probe files))).filter
    (fun g => decide (1 < g.2.length))

/-- Sampled frames are produced, consumed and compared only by the external
`cv2` collaborator, so their pixel content is opaque to the embedded core. -/
abbrev Frame : Type := Nat

/-- What the core reads from `cv2.VideoCapture`: the reported frame rate
(`CAP_PROP_FPS`), the reported frame count (`CAP_PROP_FRAME_COUNT`), and the
stream of frames that successive `read()` calls can actually decode (already
grayscaled and resized by the collaborator). -/
structure CapInfo where
  fps : Rat
  totalFrames : Nat
  frames : List Frame
deriving DecidableEq

/-- The duration that `extract_video_frames` computes from the `cv2` metadata:
`total_frames / fps if fps > 0 else 0`, and `0` when the file cannot be
opened. -/
def cvDuration (cv : String → Option CapInfo) (path : String) : Rat :=
  match cv path with
  | none => 0
  | some info => if 0 < info.fps then (info.totalFrames : Rat) / info.fps else 0

/-- Embedding of `extract_video_frames`: open the file (empty result when that
fails), compute the metadata duration, reject files shorter than 10 seconds,
then read up to `int(fps * extract_seconds)` frames starting from the middle
frame `int((duration / 2) * fps)`.  The source returns a pair whose second
component is always the empty list; only the first component is modelled. -/
def extract_video_frames (cv : String → Option CapInfo) (extractSeconds : Rat)
    (path : String) : List Frame :=
  match cv path with
  | none => []
  | some info =>
      let duration : Rat := if 0 < info.fps then (info.totalFrames : Rat) / info.fps else 0
      if duration < 10 then []
      else
        let middleFrame : Nat := (⌊(duration / 2) * info.fps⌋).toNat
        let targetFrames : Nat :=
          if 0 < info.fps then (⌊info.fps * extractSeconds⌋).toNat else 150
        (info.frames.drop middleFrame).take targetFrames

/-- Embedding of `calculate_frame_similarity`: zero when either sequence is
empty, otherwise the mean over the index-aligned prefix (up to the shorter
length) of the per-frame correlation scores clamped to be non-negative.  The
`cv2.matchTemplate` normalized cross-correlation is the external parameter
`corr`. -/
def calculate_frame_similarity (corr : Frame → Frame → Rat)
    (ms1 ms2 : List Frame) : Rat :=
  if ms1 = [] ∨ ms2 = [] then 0
  else
    let n := min ms1.length ms2.length
    let sims := (List.range n).map
      (fun i => max 0 (corr (ms1.getD i (0 : Nat)) (ms2.getD i (0 : Nat))))
    if sims = [] then 0 else sims.sum / sims.length

/-- Model of the Python dict insert `d[key] = v`: an existing key keeps its
position and gets the new value, a new key goes to the end. -/
def dictInsert {β : Type} (key : String) (v : β) :
    List (String × β) → List (String × β)
  | [] => [(key, v)]
  | (k, w) :: rest =>
      if k = key then (k, v) :: rest else (k, w) :: dictInsert key v rest

/-- The `file_frames` dict built inside `detect_by_duration_and_frames`: for
each file of the candidate group, in order, extract the middle frames and store
`file_frames[video_file.path] = (video_file, middle_frames)` when the
extraction produced at least one frame. -/
def fileFrames (cv : String → Option CapInfo) (extractSeconds : Rat)
    (files : List VideoFile) : List (String × VideoFile × List Frame) :=
  files.foldl
    (fun acc f =>
      let mf := extract_video_frames cv extractSeconds f.path
      if mf ≠ [] then dictInsert f.path (f, mf) acc else acc)
    []

/-- Match predicate of the visual refinement pass: the frame similarity of the
two stored thumbnail sequences reaches the threshold. -/
def frameMatch (corr : Frame → Frame → Rat) (fthr : Rat)
    (a b : String × VideoFile × List Frame) : Bool :=
  decide (fthr ≤ calculate_frame_similarity corr a.2.2 b.2.2)

/-- Embedding of `detect_by_duration_and_frames`: take the duration candidate
groups, and inside each one run greedy representative clustering (tracked by a
`processed_files` path set in the source, which has the same effect because
dict keys are distinct) over the entries of `file_frames`; only clusters with
at least two files are emitted, under keys `<group_key>_frames_<n>` that are
pairwise distinct, so the output dict is modelled by the list of member lists
in insertion order. -/
def detect_by_duration_and_frames (probe : String → Rat)
    (cv : String → Option CapInfo) (corr : Frame → Frame → Rat)
    (tol fthr extractSeconds : Rat) (files : List VideoFile) :
    List (List VideoFile) :=
  (detect_by_duration probe tol files).flatMap
    (fun g =>
      if g.2.length < 2 then []
      else
        ((greedyGroups (frameMatch corr fthr) (fileFrames cv extractSeconds g.2)).map
            (fun gr => gr.2.map (fun e => e.2.1))).filter
          (fun ms => decide (1 < ms.length)))

/-- The stable descending-by-size sort used by the report builder and the
resolver: `sorted(files, key=lambda x: x.size, reverse=True)`.  Python sorting
is stable, and `reverse=True` keeps members of equal size in their original
order; insertion placing a file before the later files of equal size realizes
exactly that. -/
def insertBySizeDesc (f : VideoFile) : List VideoFile → List VideoFile
  | [] => [f]
  | g :: rest =>
      if g.size ≤ f.size then f :: g :: rest else g :: insertBySizeDesc f rest

/-- Stable sort of a group by byte size, largest first. -/
def sortBySizeDesc : List VideoFile → List VideoFile
  | [] => []
  | f :: rest => insertBySizeDesc f (sortBySizeDesc rest)

/-- Checks that consecutive members have non-increasing sizes. -/
def sortedSizeDesc : List VideoFile → Bool
  | [] => true
  | [_] => true
  | a :: b :: rest => (b.size ≤ a.size) && sortedSizeDesc (b :: rest)

/-- Largest byte size occurring in a group (0 for the empty group). -/
def maxSize (g : List VideoFile) : Nat :=
  g.foldr (fun f m => max f.size m) 0

/-- The removal set the resolver computes for one group:
`sorted_files[1:]`, everything except the first (largest) file of the stable
descending sort. -/
def removed_in_group (g : List VideoFile) : List VideoFile :=
  (sortBySizeDesc g).drop 1

/-- All files `delete_duplicates` marks for deletion, over the groups in dict
order: groups with at most one member are skipped, every other group
contributes its removal set. -/
def files_to_delete (groups : List (List VideoFile)) : List VideoFile :=
  groups.flatMap (fun g => if g.length ≤ 1 then [] else removed_in_group g)

/-- Model of `os.remove`: deleting an existing, removable path succeeds and
removes it; any other path (missing, or not removable for permission reasons)
raises `OSError`, reported here as `false`. -/
def os_remove (fs : List String) (p : String) : List String × Bool :=
  if p ∈ fs then (fs.erase p, true) else (fs, false)

/-- The deletion loop of `delete_duplicates` over the marked files: in dry-run
mode every marked file only counts as deleted; in real mode `os.remove` is
attempted per file, a success increments the deleted count and a failure
(`OSError`) increments the failed count, and the loop continues either way.
Returns the final filesystem and the `(deleted_count, failed_count)` pair. -/
def delete_files (dryRun : Bool) : List String → List VideoFile → List String × Nat × Nat
  | fs, [] => (fs, 0, 0)
  | fs, f :: rest =>
      if dryRun then
        let r := delete_files dryRun fs rest
        (r.1, r.2.1 + 1, r.2.2)
      else
        let step := os_remove fs f.path
        let r := delete_files dryRun step.1 rest
        if step.2 then (r.1, r.2.1 + 1, r.2.2) else (r.1, r.2.1, r.2.2 + 1)

/-- Embedding of `delete_duplicates` acting on the filesystem `fs`: the groups
are traversed in dict order, each group of more than one member is sorted by
size descending and everything after the first file is processed by the
deletion loop.  (The early return of the source when nothing is marked returns
the same `(0, 0)` as the empty loop.) -/
def delete_duplicates (dryRun : Bool) (groups : List (List VideoFile))
    (fs : List String) : List String × Nat × Nat :=
  delete_files dryRun fs (files_to_delete groups)

/-- Embedding of the totals computed by `print_duplicates_report`: over the
groups with more than one member, accumulate `len(files) - 1` duplicates and
`files[0].size * (len(files) - 1)` wasted bytes. -/
def print_report_totals (dups : List (List VideoFile)) : Nat × Nat :=
  dups.foldl
    (fun acc files =>
      if files.length ≤ 1 then acc
      else (acc.1 + (files.length - 1), acc.2 + files.headI.size * (files.length - 1)))
    (0, 0)

/-- The per-group listing printed by the report: the group sorted by size
descending, the entry at index 0 marked as kept (`[保留]`, `true` here) and all
the others as removable duplicates (`[重复]`, `false`). -/
def group_listing (files : List VideoFile) : List (Bool × VideoFile) :=
  (sortBySizeDesc files).enum.map (fun p => (p.1 == 0, p.2))

/-- Inventory file with path and name a, 10 bytes. -/
def fA : VideoFile := { path := "a", size := 10, name := "a" }

/-- Inventory file with path and name b, 20 bytes. -/
def fB : VideoFile := { path := "b", size := 20, name := "b" }

/-- Inventory file with path and name c, 30 bytes. -/
def fC : VideoFile := { path := "c", size := 30, name := "c" }

/-- Inventory file with path and name d, 10 bytes, same size as `fA`. -/
def fD : VideoFile := { path := "d", size := 10, name := "d" }

/-- A concrete ffprobe collaborator assigning fixed durations to the three
paths of the sample inventory. -/
def probeThree (d1 d2 d3 : Rat) : String → Rat :=
  fun p => if p = "a" then d1 else if p = "b" then d2 else d3

/-- A file as it comes out of the duration probing stage. -/
def withDur (f : VideoFile) (d : Rat) : VideoFile :=
  { f with duration := d }

/-- The sample filesystem: path a exists and is removable, path b does not. -/
def fsW : List String := ["a", "zz"]

/-- The digest key shared by the two readable sample files. -/
def hKey : String := "dig"

/-- A concrete hashing collaborator: path a is unreadable (empty digest),
every other path digests to `hKey`. -/
def hashW : String → String := fun p => if p = "a" then "" else hKey

/-- The readable sample files as stored by the hash method. -/
def fBh : VideoFile := { path := "b", size := 20, name := "b", hash_md5 := hKey }

/-- The second readable sample file as stored by the hash method. -/
def fCh : VideoFile := { path := "c", size := 30, name := "c", hash_md5 := hKey }

/-- A 20 second capture at 1 fps with 11 decodable frames. -/
def capLong : CapInfo := { fps := 1, totalFrames := 20, frames := List.replicate 11 0 }

/-- A 5 second capture at 1 fps: below the 10 second floor. -/
def capShort : CapInfo := { fps := 1, totalFrames := 5, frames := List.replicate 11 0 }

/-- A concrete cv2 collaborator: path c opens as a too-short video, every other
path opens as the 20 second capture. -/
def cvW : String → Option CapInfo :=
  fun p => if p = "c" then some capShort else some capLong

/-- The constantly-perfect correlation measure. -/
def corrW : Frame → Frame → Rat := fun _ _ => 1

/-! ### Lemmas about the greedy clustering pass -/

theorem greedyGroups_nil {α : Type} (p : α → α → Bool) : greedyGroups p [] = [] := by
  rw [greedyGroups]

theorem greedyGroups_cons {α : Type} (p : α → α → Bool) (f : α) (rest : List α) :
    greedyGroups p (f :: rest) =
      (f, f :: rest.filter (fun g => p f g)) ::
        greedyGroups p (rest.filter (fun g => ! p f g)) := by
  rw [greedyGroups]

/-- Every group produced by the greedy pass starts with its representative, and
every member either is the representative or matches it. -/
theorem greedyGroups_head_match {α : Type} (p : α → α → Bool) (l : List α) :
    ∀ r ms, (r, ms) ∈ greedyGroups p l →
      ms.head? = some r ∧ ∀ m ∈ ms, m = r ∨ p r m = true := by
  induction l using greedyGroups.induct p with
  | case1 =>
      intro r ms h
      rw [greedyGroups_nil] at h
      simp at h
  | case2 f rest ih =>
      intro r ms h
      rw [greedyGroups_cons] at h
      rcases List.mem_cons.mp h with h | h
      · have hr : r = f := congrArg Prod.fst h
        have hms : ms = f :: rest.filter (fun g => p f g) := congrArg Prod.snd h
        subst hr hms
        refine ⟨rfl, ?_⟩
        intro m hm
        rcases List.mem_cons.mp hm with hm | hm
        · exact Or.inl hm
        · exact Or.inr (List.of_mem_filter hm)
      · exact ih r ms h

/-- Every member list produced by the greedy pass is a sublist of the input:
the members appear in inventory-encounter order. -/
theorem greedyGroups_sublist {α : Type} (p : α → α → Bool) (l : List α) :
    ∀ r ms, (r, ms) ∈ greedyGroups p l → ms.Sublist l := by
  induction l using greedyGroups.induct p with
  | case1 =>
      intro r ms h
      rw [greedyGroups_nil] at h
      simp at h
  | case2 f rest ih =>
      intro r ms h
      rw [greedyGroups_cons] at h
      rcases List.mem_cons.mp h with h | h
      · have hms : ms = f :: rest.filter (fun g => p f g) := congrArg Prod.snd h
        subst hms
        exact List.Sublist.cons₂ f (List.filter_sublist rest)
      · exact List.Sublist.trans (ih r ms h)
          (List.Sublist.cons f (List.filter_sublist rest))

/-- The greedy pass is a partition: concatenating all member lists gives back
the input up to permutation, so every file lands in exactly one group. -/
theorem greedyGroups_flatten_perm {α : Type} (p : α → α → Bool) (l : List α) :
    List.Perm ((greedyGroups p l).flatMap (fun g => g.2)) l := by
  induction l using greedyGroups.induct p with
  | case1 => rw [greedyGroups_nil]; rfl
  | case2 f rest ih =>
      rw [greedyGroups_cons]
      simp only [List.flatMap_cons, List.cons_append]
      exact List.Perm.cons f
        (List.Perm.trans (List.Perm.append_left (rest.filter (fun g => p f g)) ih)
          (List.filter_append_perm (fun g => p f g) rest))

/-! ### Lemmas about the defaultdict buckets -/

/-- Where an entry of `appendAtKey k new A` comes from: it is either an
untouched entry of `A`, or the bucket of `k`, namely an old bucket of `A`
(or a fresh empty one) extended with `new`. -/
theorem appendAtKey_mem {κ β : Type} [DecidableEq κ] (k : κ) (new : List β)
    (A : List (κ × List β)) :
    ∀ k' ms', (k', ms') ∈ appendAtKey k new A →
      (k', ms') ∈ A ∨
        (k' = k ∧ ∃ old, ms' = old ++ new ∧ ((k, old) ∈ A ∨ old = [])) := by
  induction A with
  | nil =>
      intro k' ms' h
      simp only [appendAtKey, List.mem_singleton] at h
      have h1 : k' = k := congrArg Prod.fst h
      have h2 : ms' = new := congrArg Prod.snd h
      exact Or.inr ⟨h1, [], by simpa using h2, Or.inr rfl⟩
  | cons e rest ih =>
      intro k' ms' h
      obtain ⟨ke, mse⟩ := e
      simp only [appendAtKey] at h
      by_cases hk : ke = k
      · subst hk
        simp only [if_pos rfl] at h
        rcases List.mem_cons.mp h with h | h
        · have h1 : k' = ke := congrArg Prod.fst h
          have h2 : ms' = mse ++ new := congrArg Prod.snd h
          exact Or.inr ⟨h1, mse, h2, Or.inl (List.mem_cons_self _ _)⟩
        · exact Or.inl (List.mem_cons_of_mem _ h)
      · rw [if_neg hk] at h
        rcases List.mem_cons.mp h with h | h
        · exact Or.inl (List.mem_cons.mpr (Or.inl h))
        · rcases ih k' ms' h with h' | ⟨h1, old, h2, h3⟩
          · exact Or.inl (List.mem_cons_of_mem _ h')
          · refine Or.inr ⟨h1, old, h2, ?_⟩
            rcases h3 with h3 | h3
            · exact Or.inl (List.mem_cons_of_mem _ h3)
            · exact Or.inr h3

/-- A fold preserves any invariant its step preserves. -/
theorem foldl_inv {σ ι : Type} (step : σ → ι → σ) (P : σ → Prop)
    (hstep : ∀ s i, P s → P (step s i)) :
    ∀ (l : List ι) (s : σ), P s → P (l.foldl step s) := by
  intro l
  induction l with
  | nil => intro s h; exact h
  | cons i rest ih => intro s h; exact ih _ (hstep s i h)

/-- `appendAtKey` preserves a per-bucket invariant when the appended files
satisfy it at the bucket key. -/
theorem appendAtKey_inv {κ β : Type} [DecidableEq κ] {Q : κ → β → Prop}
    (k : κ) (new : List β) (A : List (κ × List β))
    (hA : ∀ k' ms', (k', ms') ∈ A → ∀ b ∈ ms', Q k' b)
    (hnew : ∀ b ∈ new, Q k b) :
    ∀ k' ms', (k', ms') ∈ appendAtKey k new A → ∀ b ∈ ms', Q k' b := by
  intro k' ms' h b hb
  rcases appendAtKey_mem k new A k' ms' h with h' | ⟨hk, old, hold, hsrc⟩
  · exact hA k' ms' h' b hb
  · subst hk
    subst hold
    rcases List.mem_append.mp hb with hb | hb
    · rcases hsrc with hsrc | hsrc
      · exact hA k' old hsrc b hb
      · subst hsrc; simp at hb
    · exact hnew b hb

/-- Every member of a bucket of `detect_by_size` has exactly the bucket key as
its byte size. -/
theorem detect_by_size_mem_size (files : List VideoFile) :
    ∀ s ms, (s, ms) ∈ detect_by_size files → ∀ f ∈ ms, f.size = s := by
  intro s ms h f hf
  unfold detect_by_size at h
  have h' := List.mem_of_mem_filter h
  have key : ∀ k' ms', (k', ms') ∈
      files.foldl (fun acc (f : VideoFile) => appendAtKey f.size [f] acc) [] →
      ∀ f ∈ ms', VideoFile.size f = k' := by
    refine foldl_inv _
      (fun acc => ∀ k' ms', (k', ms') ∈ acc → ∀ f ∈ ms', VideoFile.size f = k')
      ?_ files [] (by intro k' ms' h; simp at h)
    intro acc g hacc
    refine appendAtKey_inv g.size [g] acc hacc ?_
    intro b hb
    simp only [List.mem_singleton] at hb
    subst hb; rfl
  exact key s ms h' f hf

/-- Every member of a bucket of `detect_by_hash` carries the bucket key as its
stored digest, its path hashes to that key, and the key is non-empty: the
digest computation of every grouped file succeeded. -/
theorem detect_by_hash_mem_digest (hashFn : String → String) (files : List VideoFile) :
    ∀ h ms, (h, ms) ∈ detect_by_hash hashFn files →
      ∀ f ∈ ms, f.hash_md5 = h ∧ hashFn f.path = h ∧ h ≠ "" := by
  intro h ms hmem f hf
  unfold detect_by_hash at hmem
  have h' := List.mem_of_mem_filter hmem
  have key : ∀ k' ms', (k', ms') ∈
      files.foldl
        (fun acc (f : VideoFile) =>
          let f' := { f with hash_md5 := hashFn f.path }
          if f'.hash_md5 ≠ "" then appendAtKey f'.hash_md5 [f'] acc else acc) [] →
      ∀ f ∈ ms', f.hash_md5 = k' ∧ hashFn f.path = k' ∧ k' ≠ "" := by
    refine foldl_inv _
      (fun (acc : List (String × List VideoFile)) => ∀ k' ms', (k', ms') ∈ acc →
        ∀ f ∈ ms', f.hash_md5 = k' ∧ hashFn f.path = k' ∧ k' ≠ "") ?_ files []
      (by intro k' ms' h; simp at h)
    intro acc g hacc
    by_cases hg : hashFn g.path ≠ ""
    · simp only [hg, ne_eq, not_false_eq_true, if_pos]
      refine appendAtKey_inv _ _ acc hacc ?_
      intro b hb
      simp only [List.mem_singleton] at hb
      subst hb
      exact ⟨rfl, rfl, hg⟩
    · simpa [hg] using hacc
  exact key h ms h' f hf

/-! ### Lemmas about the stable descending sort -/

theorem insertBySizeDesc_perm (f : VideoFile) (l : List VideoFile) :
    List.Perm (insertBySizeDesc f l) (f :: l) := by
  induction l with
  | nil => rfl
  | cons g rest ih =>
      by_cases h : g.size ≤ f.size
      · simp [insertBySizeDesc, h]
      · simp only [insertBySizeDesc, if_neg h]
        exact List.Perm.trans (List.Perm.cons g ih) (List.Perm.swap f g rest)

theorem sortBySizeDesc_perm (g : List VideoFile) :
    List.Perm (sortBySizeDesc g) g := by
  induction g with
  | nil => rfl
  | cons f rest ih =>
      exact List.Perm.trans (insertBySizeDesc_perm f (sortBySizeDesc rest))
        (List.Perm.cons f ih)

theorem insertBySizeDesc_head (f g : VideoFile) (rest : List VideoFile) :
    insertBySizeDesc f (g :: rest) =
      if g.size ≤ f.size then f :: g :: rest else g :: insertBySizeDesc f rest := rfl

theorem sortedSizeDesc_cons (a : VideoFile) (l : List VideoFile) :
    sortedSizeDesc (a :: l) = true ↔
      (∀ b, l.head? = some b → b.size ≤ a.size) ∧ sortedSizeDesc l = true := by
  cases l with
  | nil => simp [sortedSizeDesc]
  | cons b rest =>
      simp only [sortedSizeDesc, Bool.and_eq_true, decide_eq_true_eq, List.head?_cons]
      constructor
      · rintro ⟨h1, h2⟩
        exact ⟨by intro c hc; cases hc; exact h1, h2⟩
      · rintro ⟨h1, h2⟩
        exact ⟨h1 b rfl, h2⟩

theorem insertBySizeDesc_sorted (f : VideoFile) (l : List VideoFile)
    (hl : sortedSizeDesc l = true) :
    sortedSizeDesc (insertBySizeDesc f l) = true := by
  induction l with
  | nil => simp [insertBySizeDesc, sortedSizeDesc]
  | cons g rest ih =>
      rcases (sortedSizeDesc_cons g rest).mp hl with ⟨hg, hrest⟩
      by_cases h : g.size ≤ f.size
      · simp only [insertBySizeDesc, if_pos h]
        refine (sortedSizeDesc_cons f (g :: rest)).mpr ⟨?_, hl⟩
        intro b hb
        simp only [List.head?_cons, Option.some_inj] at hb
        subst hb; exact h
      · simp only [insertBySizeDesc, if_neg h]
        refine (sortedSizeDesc_cons g (insertBySizeDesc f rest)).mpr ⟨?_, ih hrest⟩
        intro b hb
        cases rest with
        | nil =>
            simp only [insertBySizeDesc, List.head?_cons, Option.some_inj] at hb
            subst hb; exact Nat.le_of_lt (Nat.lt_of_not_le h)
        | cons x rest' =>
            rw [insertBySizeDesc_head] at hb
            by_cases hx : x.size ≤ f.size
            · rw [if_pos hx] at hb
              simp only [List.head?_cons, Option.some_inj] at hb
              subst hb; exact Nat.le_of_lt (Nat.lt_of_not_le h)
            · rw [if_neg hx] at hb
              simp only [List.head?_cons, Option.some_inj] at hb
              subst hb
              exact hg x rfl

theorem sortBySizeDesc_sorted (g : List VideoFile) :
    sortedSizeDesc (sortBySizeDesc g) = true := by
  induction g with
  | nil => rfl
  | cons f rest ih => exact insertBySizeDesc_sorted f (sortBySizeDesc rest) ih

theorem maxSize_cons (f : VideoFile) (l : List VideoFile) :
    maxSize (f :: l) = max f.size (maxSize l) := rfl

theorem le_maxSize (g : List VideoFile) : ∀ f ∈ g, f.size ≤ maxSize g := by
  induction g with
  | nil => intro f hf; simp at hf
  | cons x rest ih =>
      intro f hf
      rcases List.mem_cons.mp hf with hf | hf
      · subst hf; exact Nat.le_max_left _ _
      · exact Nat.le_trans (ih f hf) (Nat.le_max_right _ _)

/-- The first file of the stable descending sort is the first file of the
group, in stored order, whose size attains the group maximum: the stable sort
breaks ties by first-encountered order. -/
theorem sortBySizeDesc_head (g : List VideoFile) :
    (sortBySizeDesc g).head? = g.find? (fun f => f.size == maxSize g) := by
  induction g with
  | nil => rfl
  | cons f l ih =>
      show (insertBySizeDesc f (sortBySizeDesc l)).head? = _
      cases hl : sortBySizeDesc l with
      | nil =>
          have : l = [] := by
            have := (sortBySizeDesc_perm l).length_eq
            rw [hl] at this
            exact List.length_eq_zero.mp this.symm
          subst this
          simp [insertBySizeDesc, maxSize_cons, maxSize, List.find?_cons]
      | cons m s' =>
          have hml : l.find? (fun f => f.size == maxSize l) = some m := by
            rw [← ih, hl]; rfl
          have hm : m.size = maxSize l := by
            have h1 := List.find?_some hml
            simpa using h1
          by_cases h : m.size ≤ f.size
          · rw [insertBySizeDesc_head, if_pos h]
            have hmx : maxSize (f :: l) = f.size := by
              rw [maxSize_cons, ← hm]
              exact Nat.max_eq_left h
            rw [hmx]
            simp [List.find?_cons]
          · rw [insertBySizeDesc_head, if_neg h]
            have hlt : f.size < m.size := Nat.lt_of_not_le h
            have hmx : maxSize (f :: l) = maxSize l := by
              rw [maxSize_cons, ← hm]
              exact Nat.max_eq_right (Nat.le_of_lt hlt)
            rw [hmx]
            have hf : (f.size == maxSize l) = false := by
              rw [← hm]
              exact beq_eq_false_iff_ne.mpr (Nat.ne_of_lt hlt)
            simp only [List.head?_cons, List.find?_cons, hf]
            exact hml.symm

/-! ### Lemmas about the visual refinement pipeline -/

/-- `dictInsert` preserves a per-entry invariant satisfied by the new entry. -/
theorem dictInsert_inv {β : Type} {Q : String × β → Prop} (key : String) (v : β)
    (A : List (String × β)) (hA : ∀ e ∈ A, Q e) (hv : Q (key, v)) :
    ∀ e ∈ dictInsert key v A, Q e := by
  induction A with
  | nil => intro e he; simp only [dictInsert, List.mem_singleton] at he; subst he; exact hv
  | cons w rest ih =>
      intro e he
      obtain ⟨kw, vw⟩ := w
      simp only [dictInsert] at he
      by_cases hk : kw = key
      · rw [if_pos hk] at he
        rcases List.mem_cons.mp he with he | he
        · subst he; subst hk; exact hv
        · exact hA _ (List.mem_cons_of_mem _ he)
      · rw [if_neg hk] at he
        rcases List.mem_cons.mp he with he | he
        · subst he; exact hA _ (List.mem_cons_self _ _)
        · exact ih (fun e he' => hA e (List.mem_cons_of_mem _ he')) e he

/-- Every entry of the `file_frames` dict stores its file under the file path,
together with that file's extracted middle frames, which are non-empty. -/
theorem fileFrames_inv (cv : String → Option CapInfo) (es : Rat)
    (files : List VideoFile) :
    ∀ e ∈ fileFrames cv es files,
      e.1 = e.2.1.path ∧ e.2.2 = extract_video_frames cv es e.2.1.path ∧ e.2.2 ≠ [] := by
  unfold fileFrames
  refine foldl_inv _
    (fun (acc : List (String × VideoFile × List Frame)) => ∀ e ∈ acc,
      e.1 = e.2.1.path ∧ e.2.2 = extract_video_frames cv es e.2.1.path ∧ e.2.2 ≠ []) ?_
    files [] (by intro e he; simp at he)
  intro acc f hacc
  by_cases hf : extract_video_frames cv es f.path ≠ []
  · simp only [hf, ne_eq, not_false_eq_true, if_pos]
    exact dictInsert_inv _ _ acc hacc ⟨rfl, rfl, hf⟩
  · simpa [hf] using hacc

/-- A file whose metadata duration is below the 10 second floor yields no
frames: `extract_video_frames` rejects it outright. -/
theorem extract_video_frames_short (cv : String → Option CapInfo) (es : Rat)
    (path : String) (h : cvDuration cv path < 10) :
    extract_video_frames cv es path = [] := by
  unfold extract_video_frames
  unfold cvDuration at h
  cases hcv : cv path with
  | none => rfl
  | some info =>
      rw [hcv] at h
      simp only [if_pos h]

/-- Membership in a group of `detect_by_duration_and_frames` comes from an
entry of the `file_frames` dict of some duration-candidate group. -/
theorem detect_by_duration_and_frames_mem (probe : String → Rat)
    (cv : String → Option CapInfo) (corr : Frame → Frame → Rat)
    (tol fthr es : Rat) (files : List VideoFile) :
    ∀ g ∈ detect_by_duration_and_frames probe cv corr tol fthr es files,
      ∀ f ∈ g, ∃ cand ∈ detect_by_duration probe tol files,
        ∃ e ∈ fileFrames cv es cand.2, e.2.1 = f := by
  intro g hg f hf
  unfold detect_by_duration_and_frames at hg
  rcases List.mem_flatMap.mp hg with ⟨cand, hcand, hg'⟩
  refine ⟨cand, hcand, ?_⟩
  by_cases hlen : cand.2.length < 2
  · rw [if_pos hlen] at hg'; simp at hg'
  · rw [if_neg hlen] at hg'
    have hg'' := List.mem_of_mem_filter hg'
    rcases List.mem_map.mp hg'' with ⟨gr, hgr, hmap⟩
    subst hmap
    rcases List.mem_map.mp hf with ⟨e, he, hef⟩
    exact ⟨e, (greedyGroups_sublist _ _ gr.1 gr.2 hgr).mem he, hef⟩

/-! ### Lemmas about the deletion loop -/

/-- In dry-run mode the deletion loop touches nothing: the filesystem is
returned unchanged, every marked file counts as deleted, nothing fails. -/
theorem delete_files_dry (l : List VideoFile) (fs : List String) :
    delete_files true fs l = (fs, l.length, 0) := by
  induction l generalizing fs with
  | nil => rfl
  | cons f rest ih => simp [delete_files, ih]

/-- In real mode the deletion loop acts independently on each marked file:
assuming unique paths, the final filesystem is the initial one minus the
marked paths, the deleted count is the number of marked paths that were
present (hence removable), and the failed count is the number of marked paths
that were not. -/
theorem delete_files_real (marked : List VideoFile) (fs : List String)
    (hfs : fs.Nodup) (hm : (marked.map VideoFile.path).Nodup) :
    delete_files false fs marked =
      (fs.filter (fun q => decide (q ∉ marked.map VideoFile.path)),
       (marked.filter (fun f => decide (f.path ∈ fs))).length,
       (marked.filter (fun f => decide (f.path ∉ fs))).length) := by
  induction marked generalizing fs with
  | nil => simp [delete_files]
  | cons f rest ih =>
      simp only [List.map_cons, List.nodup_cons] at hm
      obtain ⟨hfp, hrest⟩ := hm
      by_cases h : f.path ∈ fs
      · have herase : fs.erase f.path = fs.filter (fun q => q != f.path) :=
          List.Nodup.erase_eq_filter hfs f.path
        have step1 : delete_files false fs (f :: rest) =
            (let r := delete_files false (fs.erase f.path) rest
             (r.1, r.2.1 + 1, r.2.2)) := by
          simp [delete_files, os_remove, if_pos h]
        rw [step1, ih (fs.erase f.path) (hfs.erase f.path) hrest]
        have hmemfix : ∀ g ∈ rest, (decide (g.path ∈ fs.erase f.path)) =
            (decide (g.path ∈ fs)) := by
          intro g hgr
          have hne : g.path ≠ f.path := by
            intro hEq
            exact hfp (hEq ▸ List.mem_map_of_mem VideoFile.path hgr)
          rw [decide_eq_decide]
          exact List.mem_erase_of_ne hne
        have hmemfix' : ∀ g ∈ rest, (decide (g.path ∉ fs.erase f.path)) =
            (decide (g.path ∉ fs)) := by
          intro g hgr
          rw [decide_eq_decide]
          have hne : g.path ≠ f.path := by
            intro hEq
            exact hfp (hEq ▸ List.mem_map_of_mem VideoFile.path hgr)
          exact not_congr (List.mem_erase_of_ne hne)
        have hfsfix : (fs.erase f.path).filter
              (fun q => decide (q ∉ rest.map VideoFile.path)) =
            fs.filter (fun q => decide (q ∉ f.path :: rest.map VideoFile.path)) := by
          rw [herase, List.filter_filter]
          refine List.filter_congr ?_
          intro q hq
          by_cases hqe : q = f.path
          · subst hqe; simp
          · simp [List.mem_cons, hqe, bne]
        rw [hfsfix, List.filter_congr hmemfix, List.filter_congr hmemfix']
        have hpos : (f :: rest).filter (fun f => decide (f.path ∈ fs)) =
            f :: rest.filter (fun f => decide (f.path ∈ fs)) :=
          List.filter_cons_of_pos (by simpa using h)
        have hneg : (f :: rest).filter (fun f => decide (f.path ∉ fs)) =
            rest.filter (fun f => decide (f.path ∉ fs)) :=
          List.filter_cons_of_neg (by simpa using h)
        rw [hpos, hneg]
        simp [List.length_cons]
      · have step1 : delete_files false fs (f :: rest) =
            (let r := delete_files false fs rest
             (r.1, r.2.1, r.2.2 + 1)) := by
          simp [delete_files, os_remove, if_neg h]
        rw [step1, ih fs hfs hrest]
        have hfsfix : fs.filter (fun q => decide (q ∉ rest.map VideoFile.path)) =
            fs.filter (fun q => decide (q ∉ f.path :: rest.map VideoFile.path)) := by
          refine List.filter_congr ?_
          intro q hq
          rw [decide_eq_decide]
          have hne : q ≠ f.path := by
            intro hEq
            exact h (hEq ▸ hq)
          simp [List.mem_cons, hne]
        rw [hfsfix]
        have hpos : (f :: rest).filter (fun f => decide (f.path ∈ fs)) =
            rest.filter (fun f => decide (f.path ∈ fs)) :=
          List.filter_cons_of_neg (by simpa using h)
        have hneg : (f :: rest).filter (fun f => decide (f.path ∉ fs)) =
            f :: rest.filter (fun f => decide (f.path ∉ fs)) :=
          List.filter_cons_of_pos (by simpa using h)
        rw [hpos, hneg]
        simp [List.length_cons]

/-! ### Lemmas about the report builder -/

theorem report_fold (gs : List (List VideoFile)) : ∀ a b : Nat,
    gs.foldl
      (fun acc files =>
        if files.length ≤ 1 then acc
        else (acc.1 + (files.length - 1), acc.2 + files.headI.size * (files.length - 1)))
      (a, b) =
      (a + ((gs.filter (fun g => decide (1 < g.length))).map
          (fun g => g.length - 1)).sum,
       b + ((gs.filter (fun g => decide (1 < g.length))).map
          (fun g => g.headI.size * (g.length - 1))).sum) := by
  induction gs with
  | nil => intro a b; simp
  | cons g rest ih =>
      intro a b
      by_cases hg : g.length ≤ 1
      · rw [List.foldl_cons, if_pos hg,
          List.filter_cons_of_neg (by simpa using Nat.not_lt.mpr hg), ih]
      · rw [List.foldl_cons, if_neg hg, ih,
          List.filter_cons_of_pos (by simpa using Nat.not_le.mp hg)]
        simp [Nat.add_assoc]

theorem print_report_totals_spec (gs : List (List VideoFile)) :
    print_report_totals gs =
      (((gs.filter (fun g => decide (1 < g.length))).map (fun g => g.length - 1)).sum,
       ((gs.filter (fun g => decide (1 < g.length))).map
          (fun g => g.headI.size * (g.length - 1))).sum) := by
  unfold print_report_totals
  rw [report_fold]
  simp

theorem enumFrom_all_false (l : List VideoFile) : ∀ n : Nat, n ≠ 0 →
    (List.enumFrom n l).map (fun p => (p.1 == 0, p.2)) =
      l.map (fun f => (false, f)) := by
  induction l with
  | nil => intro n h; rfl
  | cons f rest ih =>
      intro n h
      rw [List.enumFrom_cons, List.map_cons, List.map_cons, ih (n + 1) (Nat.succ_ne_zero n)]
      have hn : (n == 0) = false := by simpa using h
      rw [hn]

/-- The per-group listing marks exactly the head of the size-descending sort as
kept and every other member as a removable duplicate. -/
theorem group_listing_spec (files : List VideoFile) (k : VideoFile)
    (hk : (sortBySizeDesc files).head? = some k) :
    group_listing files =
      (true, k) :: (sortBySizeDesc files).tail.map (fun f => (false, f)) := by
  obtain ⟨t, ht⟩ : ∃ t, sortBySizeDesc files = k :: t := by
    cases hs : sortBySizeDesc files with
    | nil => rw [hs] at hk; simp at hk
    | cons x s =>
        rw [hs] at hk
        simp only [List.head?_cons, Option.some_inj] at hk
        exact ⟨s, by rw [hk]⟩
  unfold group_listing
  rw [ht]
  simp only [List.tail_cons, List.enum_cons, List.map_cons]
  rw [enumFrom_all_false t 1 one_ne_zero]
  rfl

/-! ### The two-file characterization of the duration matching step -/

/-- On a two-file inventory the greedy duration pass forms one group exactly
when the absolute duration difference is within the tolerance, and two
singleton groups otherwise. -/
theorem greedyGroups_pair (tol : Rat) (a b : VideoFile) :
    greedyGroups (durMatch tol) [a, b] =
      if |a.duration - b.duration| ≤ tol then [(a, [a, b])]
      else [(a, [a]), (b, [b])] := by
  rw [greedyGroups_cons]
  by_cases h : |a.duration - b.duration| ≤ tol
  · rw [if_pos h]
    simp [durMatch, h, greedyGroups_nil, List.filter]
  · rw [if_neg h]
    simp [durMatch, h, greedyGroups_cons, greedyGroups_nil, List.filter]

/-! ### Concrete instances used to exercise the detectors -/

theorem withDur_duration (f : VideoFile) (d : Rat) : (withDur f d).duration = d := rfl

theorem validDurationFiles_AB (d1 d2 d3 : Rat) (h1 : 0 < d1) (h2 : 0 < d2) :
    validDurationFiles (probeThree d1 d2 d3) [fA, fB] =
      [withDur fA d1, withDur fB d2] := by
  unfold validDurationFiles probeThree fA fB withDur
  simp [h1, h2]

theorem validDurationFiles_ABC (d1 d2 d3 : Rat) (h1 : 0 < d1) (h2 : 0 < d2)
    (h3 : 0 < d3) :
    validDurationFiles (probeThree d1 d2 d3) [fA, fB, fC] =
      [withDur fA d1, withDur fB d2, withDur fC d3] := by
  unfold validDurationFiles probeThree fA fB fC withDur
  simp [h1, h2, h3]

theorem storeByKey_single (r : VideoFile) (ms : List VideoFile) :
    storeByKey [(r, ms)] = [(durationKey r.duration, ms)] := rfl

/-- Durations 100 and 102.5 at tolerance 3: one reported group. -/
theorem eval_dur_match :
    detect_by_duration (probeThree 100 102.5 1) 3 [fA, fB] =
      [(1000, [withDur fA 100, withDur fB 102.5])] := by
  unfold detect_by_duration
  rw [validDurationFiles_AB 100 102.5 1 (by norm_num) (by norm_num)]
  rw [greedyGroups_pair]
  rw [if_pos (by rw [withDur_duration, withDur_duration]; norm_num [abs_le])]
  rw [storeByKey_single]
  have hkey : durationKey (withDur fA 100).duration = 1000 := by
    rw [withDur_duration]; unfold durationKey; norm_num [round_eq]
  rw [hkey]
  simp

theorem durMatch_true {tol : Rat} {a b : VideoFile}
    (h : |a.duration - b.duration| ≤ tol) : durMatch tol a b = true := by
  simp [durMatch, h]

theorem durMatch_false {tol : Rat} {a b : VideoFile}
    (h : ¬ |a.duration - b.duration| ≤ tol) : durMatch tol a b = false := by
  simp [durMatch, h]

theorem storeByKey_pair (r1 r2 : VideoFile) (ms1 ms2 : List VideoFile) :
    storeByKey [(r1, ms1), (r2, ms2)] =
      appendAtKey (durationKey r2.duration) ms2 [(durationKey r1.duration, ms1)] := rfl

/-- Durations 100 and 104 at tolerance 3: no match, two singleton buckets,
nothing reported. -/
theorem eval_dur_nomatch :
    detect_by_duration (probeThree 100 104 1) 3 [fA, fB] = [] := by
  unfold detect_by_duration
  rw [validDurationFiles_AB 100 104 1 (by norm_num) (by norm_num)]
  rw [greedyGroups_pair,
    if_neg (by rw [withDur_duration, withDur_duration]; norm_num [abs_le])]
  rw [storeByKey_pair]
  have hk1 : durationKey (withDur fA 100).duration = 1000 := by
    rw [withDur_duration]; unfold durationKey; norm_num [round_eq]
  have hk2 : durationKey (withDur fB 104).duration = 1040 := by
    rw [withDur_duration]; unfold durationKey; norm_num [round_eq]
  rw [hk1, hk2]
  simp [appendAtKey]

/-- Durations 100 and 100.04 at tolerance 0.01: no match, but both formatted
keys are 100.0, so the two singleton greedy groups are merged into one
reported bucket. -/
theorem eval_dur_collision :
    detect_by_duration (probeThree 100 100.04 1) 0.01 [fA, fB] =
      [(1000, [withDur fA 100, withDur fB 100.04])] := by
  unfold detect_by_duration
  rw [validDurationFiles_AB 100 100.04 1 (by norm_num) (by norm_num)]
  rw [greedyGroups_pair,
    if_neg (by rw [withDur_duration, withDur_duration]; norm_num [abs_le])]
  rw [storeByKey_pair]
  have hk1 : durationKey (withDur fA 100).duration = 1000 := by
    rw [withDur_duration]; unfold durationKey; norm_num [round_eq]
  have hk2 : durationKey (withDur fB 100.04).duration = 1000 := by
    rw [withDur_duration]; unfold durationKey; norm_num [round_eq]
  rw [hk1, hk2]
  simp [appendAtKey]

/-- Durations 100, 102, 104 at tolerance 3: the second file joins the first
representative, the third matches the second file but not the representative
and therefore starts its own group. -/
theorem eval_greedy_chain :
    greedyGroups (durMatch 3) [withDur fA 100, withDur fB 102, withDur fC 104] =
      [(withDur fA 100, [withDur fA 100, withDur fB 102]),
       (withDur fC 104, [withDur fC 104])] := by
  have hAB : durMatch 3 (withDur fA 100) (withDur fB 102) = true :=
    durMatch_true (by rw [withDur_duration, withDur_duration]; norm_num [abs_le])
  have hAC : durMatch 3 (withDur fA 100) (withDur fC 104) = false :=
    durMatch_false (by rw [withDur_duration, withDur_duration]; norm_num [abs_le])
  simp [greedyGroups_cons, greedyGroups_nil, hAB, hAC, List.filter]

/-- The three-file chain as reported by the duration method: the third file is
absent, even though it matches the second member of the reported group. -/
theorem eval_dur_chain :
    detect_by_duration (probeThree 100 102 104) 3 [fA, fB, fC] =
      [(1000, [withDur fA 100, withDur fB 102])] := by
  unfold detect_by_duration
  rw [validDurationFiles_ABC 100 102 104 (by norm_num) (by norm_num) (by norm_num)]
  rw [eval_greedy_chain]
  rw [storeByKey_pair]
  have hk1 : durationKey (withDur fA 100).duration = 1000 := by
    rw [withDur_duration]; unfold durationKey; norm_num [round_eq]
  have hk2 : durationKey (withDur fC 104).duration = 1040 := by
    rw [withDur_duration]; unfold durationKey; norm_num [round_eq]
  rw [hk1, hk2]
  simp [appendAtKey]

/-! ### Concrete instances for the visual refinement pipeline -/

theorem eval_cvDuration_long (p : String) (hp : ¬ p = "c") :
    cvDuration cvW p = 20 := by
  unfold cvDuration cvW
  rw [if_neg hp]
  show (if (0 : Rat) < capLong.fps then ((capLong.totalFrames : Rat)) / capLong.fps
    else 0) = 20
  rw [if_pos (by unfold capLong; norm_num)]
  unfold capLong
  norm_num

theorem eval_cvDuration_short : cvDuration cvW fC.path = 5 := by
  unfold cvDuration cvW fC
  rw [if_pos rfl]
  show (if (0 : Rat) < capShort.fps then ((capShort.totalFrames : Rat)) / capShort.fps
    else 0) = 5
  rw [if_pos (by unfold capShort; norm_num)]
  unfold capShort
  norm_num

theorem eval_extract_long (p : String) (hp : ¬ p = "c") :
    extract_video_frames cvW 5 p = [0] := by
  unfold extract_video_frames cvW
  rw [if_neg hp]
  show (let duration : Rat := if 0 < capLong.fps then ((capLong.totalFrames : Rat)) / capLong.fps else 0
    if duration < 10 then []
    else
      let middleFrame : Nat := (⌊(duration / 2) * capLong.fps⌋).toNat
      let targetFrames : Nat :=
        if 0 < capLong.fps then (⌊capLong.fps * (5 : Rat)⌋).toNat else 150
      (capLong.frames.drop middleFrame).take targetFrames) = [0]
  have hfps : (0 : Rat) < capLong.fps := by unfold capLong; norm_num
  have hdur : (if (0 : Rat) < capLong.fps then ((capLong.totalFrames : Rat)) / capLong.fps else 0) = 20 := by
    rw [if_pos hfps]; unfold capLong; norm_num
  simp only [hdur]
  rw [if_neg (by norm_num)]
  have hmid : (⌊((20 : Rat) / 2) * capLong.fps⌋).toNat = 10 := by
    unfold capLong
    norm_num
    decide
  have htgt : (if (0 : Rat) < capLong.fps then (⌊capLong.fps * (5 : Rat)⌋).toNat else 150) = 5 := by
    rw [if_pos hfps]; unfold capLong; norm_num; decide
  rw [hmid, htgt]
  unfold capLong
  decide

/-- Both sample files probe at 12 seconds: one duration-candidate group. -/
theorem eval_dur_12 :
    detect_by_duration (probeThree 12 12 1) 3 [fA, fB] =
      [(120, [withDur fA 12, withDur fB 12])] := by
  unfold detect_by_duration
  rw [validDurationFiles_AB 12 12 1 (by norm_num) (by norm_num)]
  rw [greedyGroups_pair]
  rw [if_pos (by rw [withDur_duration, withDur_duration]; norm_num [abs_le])]
  rw [storeByKey_single]
  have hkey : durationKey (withDur fA 12).duration = 120 := by
    rw [withDur_duration]; unfold durationKey; norm_num [round_eq]
  rw [hkey]
  simp

theorem eval_fsim : calculate_frame_similarity corrW [0] [0] = 1 := by
  unfold calculate_frame_similarity corrW
  simp [List.range_succ]

theorem eval_fileFrames :
    fileFrames cvW 5 [withDur fA 12, withDur fB 12] =
      [(fA.path, withDur fA 12, [0]), (fB.path, withDur fB 12, [0])] := by
  have hA : extract_video_frames cvW 5 (withDur fA 12).path = [0] :=
    eval_extract_long _ (by decide)
  have hB : extract_video_frames cvW 5 (withDur fB 12).path = [0] :=
    eval_extract_long _ (by decide)
  unfold fileFrames
  rw [List.foldl_cons, List.foldl_cons, List.foldl_nil]
  rw [if_pos (by rw [hB]; decide)]
  rw [if_pos (by rw [hA]; decide)]
  rw [hA, hB]
  rfl

theorem eval_frames_greedy :
    greedyGroups (frameMatch corrW 0.8)
        [(fA.path, withDur fA 12, [0]), (fB.path, withDur fB 12, [0])] =
      [((fA.path, withDur fA 12, [0]),
        [(fA.path, withDur fA 12, [0]), (fB.path, withDur fB 12, [0])])] := by
  have hm : frameMatch corrW 0.8 (fA.path, withDur fA 12, [0])
      (fB.path, withDur fB 12, [0]) = true := by
    unfold frameMatch
    rw [eval_fsim]
    norm_num
  simp [greedyGroups_cons, greedyGroups_nil, hm, List.filter]

/-- The full visual pipeline on the two 12 second files: one reported group
holding both. -/
theorem eval_frames_pipeline :
    detect_by_duration_and_frames (probeThree 12 12 1) cvW corrW 3 0.8 5 [fA, fB] =
      [[withDur fA 12, withDur fB 12]] := by
  unfold detect_by_duration_and_frames
  rw [eval_dur_12]
  rw [List.flatMap_cons, List.flatMap_nil]
  rw [if_neg (by decide)]
  rw [show ((120 : Int), [withDur fA 12, withDur fB 12]).2 =
    [withDur fA 12, withDur fB 12] from rfl]
  rw [eval_fileFrames, eval_frames_greedy]
  rfl

/-! ### Claim theorems -/

/-- Claim C1: for every group handled by the resolver (the marked set is the
same in dry-run and real mode), a member of strictly maximal size is never in
the removal set, and when several members tie for the maximal size exactly one
of them, the first in the stored order of the group, is kept while every other
member is marked for removal. -/
theorem resolver_keeps_first_maximum :
    (∀ (g : List VideoFile) (f : VideoFile), f ∈ g → g.count f = 1 →
        (∀ h ∈ g, h ≠ f → h.size < f.size) → f ∉ removed_in_group g)
    ∧ (∀ (g : List VideoFile) (k : VideoFile), (sortBySizeDesc g).head? = some k →
        g.find? (fun x => x.size == maxSize g) = some k ∧
          List.Perm (removed_in_group g) (g.erase k)) := by
  constructor
  · intro g f hf hcount hstrict hmem
    obtain ⟨k, t, hkt⟩ : ∃ k t, sortBySizeDesc g = k :: t := by
      cases hs : sortBySizeDesc g with
      | nil =>
          have hlen := (sortBySizeDesc_perm g).length_eq
          rw [hs] at hlen
          have hnil : g = [] := List.length_eq_zero.mp hlen.symm
          subst hnil
          simp at hf
      | cons k t => exact ⟨k, t, rfl⟩
    have hfind : g.find? (fun x => x.size == maxSize g) = some k := by
      rw [← sortBySizeDesc_head, hkt]
      rfl
    have hksize : k.size = maxSize g := by
      simpa using List.find?_some hfind
    have hkg : k ∈ g :=
      (sortBySizeDesc_perm g).mem_iff.mp (by rw [hkt]; exact List.mem_cons_self _ _)
    have hkf : k = f := by
      by_contra hne'
      have hlt := hstrict k hkg hne'
      have hle := le_maxSize g f hf
      rw [← hksize] at hle
      omega
    subst hkf
    have hmem' : k ∈ t := by
      have ht : removed_in_group g = t := by
        unfold removed_in_group
        rw [hkt]
        rfl
      rwa [ht] at hmem
    have hc : (sortBySizeDesc g).count k = 1 := by
      rw [(sortBySizeDesc_perm g).count_eq]
      exact hcount
    rw [hkt, List.count_cons] at hc
    have hpos : 0 < t.count k := List.count_pos_iff.mpr hmem'
    simp at hc
    omega
  · intro g k hk
    refine ⟨by rw [← sortBySizeDesc_head]; exact hk, ?_⟩
    obtain ⟨t, ht⟩ : ∃ t, sortBySizeDesc g = k :: t := by
      cases hs : sortBySizeDesc g with
      | nil => rw [hs] at hk; simp at hk
      | cons x s =>
          rw [hs] at hk
          simp only [List.head?_cons, Option.some_inj] at hk
          exact ⟨s, by rw [hk]⟩
    have hperm : List.Perm (k :: t) g := by
      rw [← ht]
      exact sortBySizeDesc_perm g
    have hsplit := List.cons_perm_iff_perm_erase.mp hperm
    have hrem : removed_in_group g = t := by
      unfold removed_in_group
      rw [ht]
      rfl
    rw [hrem]
    exact hsplit.2

/-- Witness for C1 at the concrete group with sizes 20 and 10. -/
theorem resolver_keeps_first_maximum_witness :
    fB ∉ removed_in_group [fB, fA]
    ∧ [fB, fA].find? (fun x => x.size == maxSize [fB, fA]) = some fB
    ∧ List.Perm (removed_in_group [fB, fA]) ([fB, fA].erase fB) := by
  have h2 := resolver_keeps_first_maximum.2 [fB, fA] fB (by decide)
  exact ⟨resolver_keeps_first_maximum.1 [fB, fA] fB (by decide) (by decide) (by decide),
    h2.1, h2.2⟩

/-- Claim C2: dry-run resolution mutates nothing: the filesystem is returned
unchanged, every marked file is counted as (simulated) deleted with zero
failures, and running the resolver again on the resulting filesystem returns
the identical triple. -/
theorem dry_run_no_mutation_idempotent (groups : List (List VideoFile))
    (fs : List String) :
    delete_duplicates true groups fs = (fs, (files_to_delete groups).length, 0)
    ∧ delete_duplicates true groups (delete_duplicates true groups fs).1 =
        delete_duplicates true groups fs := by
  unfold delete_duplicates
  simp [delete_files_dry]

/-- Claim C7: in real mode every marked file is attempted independently: the
result is determined per path, a failing path only increments the failed count
and removes nothing, and it never prevents the remaining marked paths from
being deleted. -/
theorem real_mode_failures_do_not_block (groups : List (List VideoFile))
    (fs : List String) (hfs : fs.Nodup)
    (hm : ((files_to_delete groups).map VideoFile.path).Nodup) :
    delete_duplicates false groups fs =
      (fs.filter (fun q => decide (q ∉ (files_to_delete groups).map VideoFile.path)),
       ((files_to_delete groups).filter (fun f => decide (f.path ∈ fs))).length,
       ((files_to_delete groups).filter (fun f => decide (f.path ∉ fs))).length) := by
  unfold delete_duplicates
  exact delete_files_real _ fs hfs hm

/-- Witness for C7: the first group marks path b, whose removal fails; the
second marks path a, which is still deleted afterwards. -/
theorem real_mode_failures_do_not_block_witness :
    delete_duplicates false [[fC, fB], [fB, fA]] fsW =
      (fsW.filter (fun q =>
        decide (q ∉ (files_to_delete [[fC, fB], [fB, fA]]).map VideoFile.path)),
       ((files_to_delete [[fC, fB], [fB, fA]]).filter
         (fun f => decide (f.path ∈ fsW))).length,
       ((files_to_delete [[fC, fB], [fB, fA]]).filter
         (fun f => decide (f.path ∉ fsW))).length)
    ∧ delete_duplicates false [[fC, fB], [fB, fA]] fsW = (["zz"], 1, 1) :=
  ⟨real_mode_failures_do_not_block [[fC, fB], [fB, fA]] fsW (by decide) (by decide),
   by decide⟩

/-- Claim C3: the name, duration and frames detectors all use greedy
representative clustering: each emitted group lists its representative first
and every member either is the representative or matches the representative
under the method predicate (never merely another member); concretely, on the
duration chain 100, 102, 104 at tolerance 3, the third file matches the second
member but not the representative and therefore starts its own group instead
of joining. -/
theorem detectors_greedy_representative :
    (∀ (sim : String → String → Rat) (thr : Rat) (files : List VideoFile),
      ∀ g ∈ detect_by_name_similarity sim thr files,
        ∃ r, g.head? = some r ∧ ∀ m ∈ g, m = r ∨ nameMatch sim thr r m = true)
    ∧ (∀ (tol : Rat) (files : List VideoFile) (r : VideoFile) (ms : List VideoFile),
        (r, ms) ∈ greedyGroups (durMatch tol) files →
          ms.head? = some r ∧ ∀ m ∈ ms, m = r ∨ durMatch tol r m = true)
    ∧ (∀ (probe : String → Rat) (cv : String → Option CapInfo)
        (corr : Frame → Frame → Rat) (tol fthr es : Rat) (files : List VideoFile),
        ∀ g ∈ detect_by_duration_and_frames probe cv corr tol fthr es files,
          ∃ r, g.head? = some r ∧ ∀ m ∈ g, m = r ∨
            fthr ≤ calculate_frame_similarity corr
              (extract_video_frames cv es r.path) (extract_video_frames cv es m.path))
    ∧ (greedyGroups (durMatch 3) [withDur fA 100, withDur fB 102, withDur fC 104] =
          [(withDur fA 100, [withDur fA 100, withDur fB 102]),
           (withDur fC 104, [withDur fC 104])]
        ∧ durMatch 3 (withDur fB 102) (withDur fC 104) = true
        ∧ durMatch 3 (withDur fA 100) (withDur fC 104) = false) := by
  refine ⟨?_, ?_, ?_, eval_greedy_chain, ?_, ?_⟩
  · intro sim thr files g hg
    unfold detect_by_name_similarity at hg
    have hg' := List.mem_of_mem_filter hg
    rcases List.mem_map.mp hg' with ⟨gr, hgr, hmap⟩
    subst hmap
    have hhm := greedyGroups_head_match (nameMatch sim thr) files gr.1 gr.2 hgr
    exact ⟨gr.1, hhm.1, hhm.2⟩
  · intro tol files r ms h
    exact greedyGroups_head_match (durMatch tol) files r ms h
  · intro probe cv corr tol fthr es files g hg
    unfold detect_by_duration_and_frames at hg
    rcases List.mem_flatMap.mp hg with ⟨cand, hcand, hg'⟩
    by_cases hlen : cand.2.length < 2
    · rw [if_pos hlen] at hg'
      simp at hg'
    · rw [if_neg hlen] at hg'
      have hg'' := List.mem_of_mem_filter hg'
      rcases List.mem_map.mp hg'' with ⟨gr, hgr, hmap⟩
      subst hmap
      have hhm := greedyGroups_head_match (frameMatch corr fthr)
        (fileFrames cv es cand.2) gr.1 gr.2 hgr
      have hsub := greedyGroups_sublist (frameMatch corr fthr)
        (fileFrames cv es cand.2) gr.1 gr.2 hgr
      have hr_mem : gr.1 ∈ gr.2 := List.mem_of_mem_head? (by rw [hhm.1]; rfl)
      have hinv_r := fileFrames_inv cv es cand.2 gr.1 (hsub.mem hr_mem)
      refine ⟨gr.1.2.1, ?_, ?_⟩
      · rw [List.head?_map, hhm.1]
        rfl
      · intro m hm
        rcases List.mem_map.mp hm with ⟨e, he, hem⟩
        rcases hhm.2 e he with heq | hmatch
        · left
          rw [← hem, heq]
        · right
          have hinv_e := fileFrames_inv cv es cand.2 e (hsub.mem he)
          unfold frameMatch at hmatch
          have hm' := of_decide_eq_true hmatch
          rw [hinv_r.2.1, hinv_e.2.1] at hm'
          rw [← hem]
          exact hm'
  · exact durMatch_true (by rw [withDur_duration, withDur_duration]; norm_num [abs_le])
  · exact durMatch_false (by rw [withDur_duration, withDur_duration]; norm_num [abs_le])

/-- Witness for C3: the duration clustering conjunct applied to the first
group of the concrete chain, and the frames conjunct applied to the group
produced by the concrete visual pipeline. -/
theorem detectors_greedy_representative_witness :
    ([withDur fA 100, withDur fB 102].head? = some (withDur fA 100)
      ∧ ∀ m ∈ [withDur fA 100, withDur fB 102], m = withDur fA 100 ∨
          durMatch 3 (withDur fA 100) m = true)
    ∧ (∃ r, [withDur fA 12, withDur fB 12].head? = some r ∧
        ∀ m ∈ [withDur fA 12, withDur fB 12], m = r ∨
          (0.8 : Rat) ≤ calculate_frame_similarity corrW
            (extract_video_frames cvW 5 r.path) (extract_video_frames cvW 5 m.path)) :=
  ⟨detectors_greedy_representative.2.1 3
      [withDur fA 100, withDur fB 102, withDur fC 104]
      (withDur fA 100) [withDur fA 100, withDur fB 102]
      (by rw [eval_greedy_chain]; exact List.mem_cons_self _ _),
   detectors_greedy_representative.2.2.1 (probeThree 12 12 1) cvW corrW 3 0.8 5
      [fA, fB] [withDur fA 12, withDur fB 12]
      (by rw [eval_frames_pipeline]; exact List.mem_cons_self _ _)⟩

/-- Claim C4: on a two-file inventory the later file joins the representative
exactly when the absolute duration difference is within the tolerance, and
concretely at tolerance 3 seconds the durations 100 and 102.5 are grouped
while 100 and 104 are not. -/
theorem duration_match_predicate :
    (∀ (tol : Rat) (a b : VideoFile),
        greedyGroups (durMatch tol) [a, b] =
          if |a.duration - b.duration| ≤ tol then [(a, [a, b])]
          else [(a, [a]), (b, [b])])
    ∧ detect_by_duration (probeThree 100 102.5 1) 3 [fA, fB] =
        [(1000, [withDur fA 100, withDur fB 102.5])]
    ∧ detect_by_duration (probeThree 100 104 1) 3 [fA, fB] = [] :=
  ⟨greedyGroups_pair, eval_dur_match, eval_dur_nomatch⟩

/-- Claim C5 counterexample: the duration method returns a group whose stored
member list is ascending in byte size, so detection groups are not stored
sorted by size descending. -/
theorem stored_group_not_size_sorted :
    detect_by_duration (probeThree 100 102.5 1) 3 [fA, fB] =
      [(1000, [withDur fA 100, withDur fB 102.5])]
    ∧ sortedSizeDesc [withDur fA 100, withDur fB 102.5] = false
    ∧ (withDur fA 100).size < (withDur fB 102.5).size :=
  ⟨eval_dur_match, by decide, by decide⟩

/-- Claim C5 (amended): stored groups keep their members in deterministic
inventory-encounter order, not sorted by size; size-method buckets all share
the bucket key as byte size (so their order is trivially size-homogeneous),
greedy groups are sublists of the scan order, and the size-descending order is
imposed by the resolver and report builder through the stable sort they apply
when consuming a group. -/
theorem groups_store_encounter_order :
    (∀ (files : List VideoFile) (s : Nat) (ms : List VideoFile),
        (s, ms) ∈ detect_by_size files → ∀ f ∈ ms, f.size = s)
    ∧ (∀ {α : Type} (p : α → α → Bool) (l : List α) (r : α) (ms : List α),
        (r, ms) ∈ greedyGroups p l → ms.Sublist l)
    ∧ (∀ g : List VideoFile,
        List.Perm (sortBySizeDesc g) g ∧ sortedSizeDesc (sortBySizeDesc g) = true) := by
  refine ⟨detect_by_size_mem_size, ?_, ?_⟩
  · intro α p l r ms h
    exact greedyGroups_sublist p l r ms h
  · intro g
    exact ⟨sortBySizeDesc_perm g, sortBySizeDesc_sorted g⟩

/-- Witness for the amended C5. -/
theorem groups_store_encounter_order_witness :
    (∀ f ∈ [fA, fD], VideoFile.size f = 10)
    ∧ List.Sublist [withDur fA 100, withDur fB 102]
        [withDur fA 100, withDur fB 102, withDur fC 104] :=
  ⟨groups_store_encounter_order.1 [fA, fD] 10 [fA, fD] (by decide),
   groups_store_encounter_order.2.1 (durMatch 3)
     [withDur fA 100, withDur fB 102, withDur fC 104]
     (withDur fA 100) [withDur fA 100, withDur fB 102]
     (by rw [eval_greedy_chain]; exact List.mem_cons_self _ _)⟩

/-- Claim C6: every file grouped by the hash method carries a non-empty digest
equal to its bucket key (its digest computation succeeded), and a file whose
digest computation failed (returned the empty string) appears in no hash
bucket; the fold itself is total, so no read failure aborts the pass. -/
theorem hash_method_skips_unreadable (hashFn : String → String)
    (files : List VideoFile) :
    (∀ h ms, (h, ms) ∈ detect_by_hash hashFn files →
        ∀ f ∈ ms, f.hash_md5 = h ∧ hashFn f.path = h ∧ h ≠ "")
    ∧ (∀ p, hashFn p = "" → ∀ h ms, (h, ms) ∈ detect_by_hash hashFn files →
        ∀ f ∈ ms, f.path ≠ p) := by
  refine ⟨detect_by_hash_mem_digest hashFn files, ?_⟩
  intro p hp h ms hmem f hf hfp
  rcases detect_by_hash_mem_digest hashFn files h ms hmem f hf with ⟨_, hpath, hne⟩
  rw [hfp, hp] at hpath
  exact hne hpath.symm

/-- Witness for C6 on the three-file inventory where path a is unreadable. -/
theorem hash_method_skips_unreadable_witness :
    (fBh.hash_md5 = hKey ∧ hashW fBh.path = hKey ∧ hKey ≠ "")
    ∧ fBh.path ≠ fA.path := by
  have h1 := (hash_method_skips_unreadable hashW [fA, fB, fC]).1 hKey [fBh, fCh]
    (by decide) fBh (by decide)
  have h2 := (hash_method_skips_unreadable hashW [fA, fB, fC]).2 fA.path
    (by decide) hKey [fBh, fCh] (by decide) fBh (by decide)
  exact ⟨h1, h2⟩

/-- Claim C8: frame extraction returns no frames for a file whose metadata
duration is under the 10 second floor, and every file placed in a
frame-similarity group had a non-empty extraction, hence a duration of at
least 10 seconds. -/
theorem frames_respect_duration_floor :
    (∀ (cv : String → Option CapInfo) (es : Rat) (p : String),
        cvDuration cv p < 10 → extract_video_frames cv es p = [])
    ∧ (∀ (probe : String → Rat) (cv : String → Option CapInfo)
        (corr : Frame → Frame → Rat) (tol fthr es : Rat) (files : List VideoFile),
        ∀ g ∈ detect_by_duration_and_frames probe cv corr tol fthr es files,
          ∀ f ∈ g, extract_video_frames cv es f.path ≠ [] ∧
            ¬ cvDuration cv f.path < 10) := by
  constructor
  · exact fun cv es p h => extract_video_frames_short cv es p h
  · intro probe cv corr tol fthr es files g hg f hf
    rcases detect_by_duration_and_frames_mem probe cv corr tol fthr es files g hg f hf
      with ⟨cand, hcand, e, he, hef⟩
    have hinv := fileFrames_inv cv es cand.2 e he
    have hne : extract_video_frames cv es f.path ≠ [] := by
      rw [← hef, ← hinv.2.1]
      exact hinv.2.2
    refine ⟨hne, ?_⟩
    intro hlt
    exact hne (extract_video_frames_short cv es f.path hlt)

/-- Witness for C8: the 20 second capture passes the floor and lands in a
group, the 5 second capture is rejected outright. -/
theorem frames_respect_duration_floor_witness :
    (extract_video_frames cvW 5 (withDur fA 12).path ≠ []
      ∧ ¬ cvDuration cvW (withDur fA 12).path < 10)
    ∧ extract_video_frames cvW 5 fC.path = [] := by
  have happ := frames_respect_duration_floor.2 (probeThree 12 12 1) cvW corrW 3 0.8 5
    [fA, fB] [withDur fA 12, withDur fB 12]
    (by rw [eval_frames_pipeline]; exact List.mem_cons_self _ _)
    (withDur fA 12) (List.mem_cons_self _ _)
  refine ⟨happ, ?_⟩
  exact frames_respect_duration_floor.1 cvW 5 fC.path
    (by rw [eval_cvDuration_short]; decide)

/-- Claim C9: the report totals are the sum over multi-member groups of
(members minus one) duplicates and of (first-member size times members minus
one) wasted bytes, and the per-group listing marks exactly the first
maximal-size member of the group as kept and every other member as a
removable duplicate. -/
theorem report_totals_and_marking :
    (∀ gs : List (List VideoFile),
      print_report_totals gs =
        (((gs.filter (fun g => decide (1 < g.length))).map
            (fun g => g.length - 1)).sum,
         ((gs.filter (fun g => decide (1 < g.length))).map
            (fun g => g.headI.size * (g.length - 1))).sum))
    ∧ (∀ (files : List VideoFile) (k : VideoFile),
        (sortBySizeDesc files).head? = some k →
          group_listing files =
            (true, k) :: (sortBySizeDesc files).tail.map (fun f => (false, f))
          ∧ files.find? (fun x => x.size == maxSize files) = some k
          ∧ ∀ f ∈ files, f.size ≤ k.size) := by
  constructor
  · exact print_report_totals_spec
  · intro files k hk
    have hfind : files.find? (fun x => x.size == maxSize files) = some k := by
      rw [← sortBySizeDesc_head]
      exact hk
    refine ⟨group_listing_spec files k hk, hfind, ?_⟩
    intro f hf
    have hksize : k.size = maxSize files := by
      simpa using List.find?_some hfind
    rw [hksize]
    exact le_maxSize files f hf

/-- Witness for C9 on the two-file inventory with sizes 10 and 20. -/
theorem report_totals_and_marking_witness :
    group_listing [fA, fB] =
        (true, fB) :: (sortBySizeDesc [fA, fB]).tail.map (fun f => (false, f))
      ∧ [fA, fB].find? (fun x => x.size == maxSize [fA, fB]) = some fB
      ∧ ∀ f ∈ [fA, fB], f.size ≤ fB.size :=
  report_totals_and_marking.2 [fA, fB] fB (by decide)

/-- Claim C10: durations 100 and 100.04 do not match at tolerance 0.01, yet
both format to the key duration_100.0, so the two greedy singleton groups are
merged into one reported duration group whose two members match no common
representative. -/
theorem duration_key_collision_merges :
    detect_by_duration (probeThree 100 100.04 1) 0.01 [fA, fB] =
      [(1000, [withDur fA 100, withDur fB 100.04])]
    ∧ durMatch 0.01 (withDur fA 100) (withDur fB 100.04) = false
    ∧ durMatch 0.01 (withDur fB 100.04) (withDur fA 100) = false
    ∧ durationKey (withDur fA 100).duration =
        durationKey (withDur fB 100.04).duration := by
  refine ⟨eval_dur_collision, ?_, ?_, ?_⟩
  · exact durMatch_false (by rw [withDur_duration, withDur_duration]; norm_num [abs_le])
  · exact durMatch_false (by rw [withDur_duration, withDur_duration]; norm_num [abs_le])
  · rw [withDur_duration, withDur_duration]
    unfold durationKey
    norm_num [round_eq]
